import Mathlib

/-!
Shallow embedding of `src/main.rs` of the changeset-component-viewer
program: the flatten/split/sort pipeline over a parsed `package.xml`
manifest and its CSV/TSV serialization, together with the error-dispatch
logic of `main`.
-/

namespace ChangesetViewer

/-- The `SortOrder` CLI enum of the Rust source. -/
inductive SortOrder
  | byType
  | asIs
deriving DecidableEq, Repr

/-- The `Types` deserialization struct: one `<types>` group, with its ordered
member strings and its type name (fields in source order). -/
structure Types where
  members : List String
  name : String
deriving DecidableEq, Repr

/-- The `Package` deserialization struct: the ordered list of type groups. -/
structure Package where
  types : List Types
deriving DecidableEq, Repr

/-- The `ComponentRow` output struct: one flattened row. -/
structure ComponentRow where
  metadata_type : String
  parent : String
  member : String
deriving DecidableEq, Repr

/-- The `SPLITTABLE_BY_DOT` constant: type names whose members are split on
the first `.`. -/
def SPLITTABLE_BY_DOT : List String :=
  ["AssignmentRule", "CustomField", "ListView", "RecordType",
   "SharingCriteriaRule", "SharingOwnerRule", "SharingTerritoryRule"]

/-- The `SPLITTABLE_BY_HYPHEN` constant: type names whose members are split
on the first `-`. -/
def SPLITTABLE_BY_HYPHEN : List String := ["Layout"]

/-- Worker for Rust `str::split_once` on a character-list view of the string:
splits at the first occurrence of `c`, the separator itself being dropped. -/
def splitOnceChars (c : Char) : List Char → Option (List Char × List Char)
  | [] => none
  | x :: xs =>
    if x = c then some ([], xs)
    else
      match splitOnceChars c xs with
      | some (p, r) => some (x :: p, r)
      | none => none

/-- Rust `str::split_once(c)`: `some (before, after)` at the first occurrence
of `c`, `none` when `c` does not occur. -/
def splitOnce (s : String) (c : Char) : Option (String × String) :=
  match splitOnceChars c s.data with
  | some (p, r) => some (String.mk p, String.mk r)
  | none => none

/-- The per-member `(parent, member)` computation inside the closure of
`flatten_components` (src/main.rs lines 96-109). -/
def splitMember (name : String) (split_parent : Bool) (m : String) : String × String :=
  if split_parent && SPLITTABLE_BY_DOT.contains name then
    match splitOnce m '.' with
    | some (p, rest) => (p, rest)
    | none => ("", m)
  else if split_parent && SPLITTABLE_BY_HYPHEN.contains name then
    match splitOnce m '-' with
    | some (p, rest) => (p, rest)
    | none => ("", m)
  else ("", m)

/-- The row-building pass of `flatten_components` before sorting: the
`flat_map`/`map` over groups and members collected into a vector. -/
def flattenRows (package : Package) (split_parent : Bool) : List ComponentRow :=
  package.types.flatMap fun t =>
    t.members.map fun m =>
      { metadata_type := t.name
        parent := (splitMember t.name split_parent m).1
        member := (splitMember t.name split_parent m).2 }

/-- Lexicographic comparison of character lists by code point, which on
UTF-8 encoded strings agrees with Rust's byte-wise `str::cmp`. -/
def cmpChars : List Char → List Char → Ordering
  | [], [] => .eq
  | [], _ :: _ => .lt
  | _ :: _, [] => .gt
  | a :: as, b :: bs => (compare a.toNat b.toNat).then (cmpChars as bs)

/-- Rust `String::cmp`: byte-wise lexicographic order, modelled on code
points (equivalent for UTF-8). -/
def cmpStr (s t : String) : Ordering := cmpChars s.data t.data

/-- The comparator passed to `rows.sort_by`: type, then parent, then member
(`cmp` followed by two `then_with`). -/
def cmpRow (a b : ComponentRow) : Ordering :=
  ((cmpStr a.metadata_type b.metadata_type).then (cmpStr a.parent b.parent)).then
    (cmpStr a.member b.member)

/-- Boolean `less-or-equal` view of `cmpRow`, used to model the stable
`sort_by` as a stable merge sort. -/
def rowLe (a b : ComponentRow) : Bool := (cmpRow a b).isLE

/-- `flatten_components` from the source: build the rows, then sort them in
place exactly when the order is `ByType` (Rust `sort_by` is a stable sort,
modelled by `List.mergeSort`). -/
def flatten_components (package : Package) (sort_order : SortOrder)
    (split_parent : Bool) : List ComponentRow :=
  let rows := flattenRows package split_parent
  match sort_order with
  | .byType => rows.mergeSort rowLe
  | .asIs => rows

/-- Whether the `csv` crate's writer must quote a field (default
`QuoteStyle::Necessary`): it contains the delimiter, the quote character, or
a record-terminator character. -/
def needsQuoting (delim : Char) (field : String) : Bool :=
  field.data.any fun ch => ch == delim || ch == '"' || ch == '\n' || ch == '\r'

/-- A single field as the `csv` crate serializes it: quoted with inner
quotes doubled when quoting is needed, verbatim otherwise. -/
def escapeField (delim : Char) (field : String) : String :=
  if needsQuoting delim field then
    "\"" ++ String.mk (field.data.flatMap fun ch =>
      if ch == '"' then ['"', '"'] else [ch]) ++ "\""
  else field

/-- One record as written by `Writer::write_record`: the escaped fields
joined by the delimiter and terminated by a newline. -/
def writeRecord (delim : Char) (fields : List String) : String :=
  String.intercalate (String.singleton delim) (fields.map (escapeField delim)) ++ "\n"

/-- `output_csv`: the full byte stream produced on the writer — always the
header record, then one record per row. -/
def output_csv (rows : List ComponentRow) : String :=
  writeRecord ',' ["Type", "Parent", "Member"] ++
    String.join (rows.map fun r => writeRecord ',' [r.metadata_type, r.parent, r.member])

/-- `output_tsv`: as `output_csv` but with the tab delimiter. -/
def output_tsv (rows : List ComponentRow) : String :=
  writeRecord '\t' ["Type", "Parent", "Member"] ++
    String.join (rows.map fun r => writeRecord '\t' [r.metadata_type, r.parent, r.member])

/-- The first record of the serialized output: the characters before the
first newline. -/
def firstLine (out : String) : String :=
  String.mk (out.data.takeWhile fun ch => ch ≠ '\n')

/-- Number of fields of an (unquoted) delimited record: separators plus
one. -/
def fieldCount (delim : Char) (record : String) : Nat :=
  record.data.count delim + 1

/-- Kinds of I/O error relevant to `main`'s error dispatch. -/
inductive IoErrorKind
  | brokenPipe
  | otherKind
deriving DecidableEq, Repr

/-- The concrete type carried inside the `Box<dyn Error>` that reaches
`main`: `writeln!` in table mode fails with an `io::Error`, while the csv
writer's `write_record` fails with a `csv::Error` that wraps the underlying
I/O error kind. -/
inductive DynBoxedError
  | ioError (kind : IoErrorKind)
  | csvError (kind : IoErrorKind)
deriving DecidableEq, Repr

/-- `e.downcast_ref::<io::Error>()`: succeeds only when the boxed concrete
type is `io::Error` itself, not when it is a `csv::Error` wrapping one. -/
def downcastRefIo : DynBoxedError → Option IoErrorKind
  | .ioError k => some k
  | .csvError _ => none

/-- Observable process outcome of `main` after the output call returns. -/
inductive ExitStatus
  | successSilent
  | errorExitWithMessage
deriving DecidableEq, Repr

/-- The error-dispatch tail of `main` (src/main.rs lines 188-197): on
success, or on an error that downcasts to an `io::Error` of broken-pipe
kind, return silently; on every other error print a message and exit 1. -/
def handleOutputResult : Except DynBoxedError Unit → ExitStatus
  | .ok _ => .successSilent
  | .error e =>
    match downcastRefIo e with
    | some .brokenPipe => .successSilent
    | _ => .errorExitWithMessage

/-! ### Properties of the comparators -/

/-- Code-point comparison of characters is an equality test. -/
theorem charCompare_eq_iff (a b : Char) : compare a.toNat b.toNat = .eq ↔ a = b := by
  rw [Nat.compare_eq_eq]
  constructor
  · intro h
    rw [← Char.ofNat_toNat a, ← Char.ofNat_toNat b, h]
  · intro h
    rw [h]

/-- Swapping the arguments of `Nat.compare` flips the outcome. -/
theorem natCompare_swap (m n : Nat) : (compare m n).swap = compare n m := by
  rcases Nat.lt_trichotomy m n with h | h | h
  · rw [Nat.compare_eq_lt.mpr h, Nat.compare_eq_gt.mpr h]
    rfl
  · rw [Nat.compare_eq_eq.mpr h, Nat.compare_eq_eq.mpr h.symm]
    rfl
  · rw [Nat.compare_eq_gt.mpr h, Nat.compare_eq_lt.mpr h]
    rfl

/-- `cmpChars` answers `eq` exactly on equal lists. -/
theorem cmpChars_eq_iff : ∀ (as bs : List Char), cmpChars as bs = .eq ↔ as = bs
  | [], [] => by simp [cmpChars]
  | [], _ :: _ => by simp [cmpChars]
  | _ :: _, [] => by simp [cmpChars]
  | a :: as, b :: bs => by
    simp [cmpChars, Ordering.then_eq_eq, charCompare_eq_iff, cmpChars_eq_iff as bs]

/-- Swapping the arguments of `cmpChars` flips the outcome. -/
theorem cmpChars_swap : ∀ (as bs : List Char), (cmpChars as bs).swap = cmpChars bs as
  | [], [] => rfl
  | [], _ :: _ => rfl
  | _ :: _, [] => rfl
  | a :: as, b :: bs => by
    simp [cmpChars, Ordering.swap_then, natCompare_swap, cmpChars_swap as bs]

/-- Strict lexicographic character-list order is transitive. -/
theorem cmpChars_lt_trans : ∀ (as bs cs : List Char),
    cmpChars as bs = .lt → cmpChars bs cs = .lt → cmpChars as cs = .lt
  | [], [], _ => by intro h1 _; simp [cmpChars] at h1
  | [], _ :: _, [] => by intro _ h2; simp [cmpChars] at h2
  | [], _ :: _, _ :: _ => by intro _ _; simp [cmpChars]
  | _ :: _, [], _ => by intro h1 _; simp [cmpChars] at h1
  | _ :: _, _ :: _, [] => by intro _ h2; simp [cmpChars] at h2
  | a :: as, b :: bs, c :: cs => by
    simp only [cmpChars, Ordering.then_eq_lt, Nat.compare_eq_lt, Nat.compare_eq_eq]
    rintro (h1 | ⟨h1, h1t⟩) (h2 | ⟨h2, h2t⟩)
    · exact Or.inl (Nat.lt_trans h1 h2)
    · exact Or.inl (h2 ▸ h1)
    · exact Or.inl (h1 ▸ h2)
    · exact Or.inr ⟨h1.trans h2, cmpChars_lt_trans as bs cs h1t h2t⟩

/-- `cmpStr` answers `eq` exactly on equal strings. -/
theorem cmpStr_eq_iff (s t : String) : cmpStr s t = .eq ↔ s = t :=
  (cmpChars_eq_iff s.data t.data).trans String.ext_iff.symm

/-- Swapping the arguments of `cmpStr` flips the outcome. -/
theorem cmpStr_swap (s t : String) : (cmpStr s t).swap = cmpStr t s :=
  cmpChars_swap s.data t.data

/-- Strict string order is transitive. -/
theorem cmpStr_lt_trans (s t u : String) :
    cmpStr s t = .lt → cmpStr t u = .lt → cmpStr s u = .lt :=
  cmpChars_lt_trans s.data t.data u.data

/-- The row comparator answers `eq` exactly on equal rows. -/
theorem cmpRow_eq_iff (a b : ComponentRow) : cmpRow a b = .eq ↔ a = b := by
  cases a
  cases b
  simp [cmpRow, Ordering.then_eq_eq, cmpStr_eq_iff, and_assoc]

/-- Swapping the arguments of the row comparator flips the outcome. -/
theorem cmpRow_swap (a b : ComponentRow) : (cmpRow a b).swap = cmpRow b a := by
  simp [cmpRow, Ordering.swap_then, cmpStr_swap]

/-- The strict row order is transitive. -/
theorem cmpRow_lt_trans (a b c : ComponentRow) :
    cmpRow a b = .lt → cmpRow b c = .lt → cmpRow a c = .lt := by
  simp only [cmpRow, Ordering.then_eq_lt, Ordering.then_eq_eq, cmpStr_eq_iff]
  rintro ((h1 | ⟨h1, h1p⟩) | ⟨⟨h1, h1p⟩, h1m⟩) ((h2 | ⟨h2, h2p⟩) | ⟨⟨h2, h2p⟩, h2m⟩)
  · exact Or.inl (Or.inl (cmpStr_lt_trans _ _ _ h1 h2))
  · exact Or.inl (Or.inl (h2 ▸ h1))
  · exact Or.inl (Or.inl (h2 ▸ h1))
  · exact Or.inl (Or.inl (h1.symm ▸ h2))
  · exact Or.inl (Or.inr ⟨h1.trans h2, cmpStr_lt_trans _ _ _ h1p h2p⟩)
  · exact Or.inl (Or.inr ⟨h1.trans h2, h2p ▸ h1p⟩)
  · exact Or.inl (Or.inl (h1.symm ▸ h2))
  · exact Or.inl (Or.inr ⟨h1.trans h2, h1p.symm ▸ h2p⟩)
  · exact Or.inr ⟨⟨h1.trans h2, h1p.trans h2p⟩, cmpStr_lt_trans _ _ _ h1m h2m⟩

/-- `Ordering.isLE` holds exactly on `lt` and `eq`. -/
theorem ordering_isLE_iff (o : Ordering) : o.isLE = true ↔ o = .lt ∨ o = .eq := by
  cases o <;> simp [Ordering.isLE]

/-- The boolean row order is transitive, as `sort_by` requires. -/
theorem rowLe_trans (a b c : ComponentRow) : rowLe a b → rowLe b c → rowLe a c := by
  intro h1 h2
  rw [rowLe, ordering_isLE_iff] at h1 h2 ⊢
  rcases h1 with h1 | h1
  · rcases h2 with h2 | h2
    · exact Or.inl (cmpRow_lt_trans a b c h1 h2)
    · rw [cmpRow_eq_iff] at h2
      subst h2
      exact Or.inl h1
  · rw [cmpRow_eq_iff] at h1
    subst h1
    exact h2

/-- The boolean row order is total, as `sort_by` requires. -/
theorem rowLe_total (a b : ComponentRow) : rowLe a b || rowLe b a := by
  rw [Bool.or_eq_true, rowLe, rowLe, ordering_isLE_iff, ordering_isLE_iff,
    ← cmpRow_swap a b]
  cases cmpRow a b <;> simp [Ordering.swap]

/-! ### Properties of `split_once` and of the serialized header -/

/-- Characterization of `splitOnceChars`: on a list containing `c` it returns
the part before the first `c` (which is `c`-free) and everything after it;
otherwise it returns `none`. -/
theorem splitOnceChars_spec (c : Char) : ∀ (l : List Char),
    (c ∈ l → ∃ p r, splitOnceChars c l = some (p, r) ∧ p ++ c :: r = l ∧ c ∉ p)
      ∧ (c ∉ l → splitOnceChars c l = none)
  | [] => by simp [splitOnceChars]
  | x :: xs => by
    constructor
    · intro hmem
      by_cases hx : x = c
      · subst hx
        exact ⟨[], xs, by simp [splitOnceChars], rfl, by simp⟩
      · have hxs : c ∈ xs := by
          rcases List.mem_cons.mp hmem with h | h
          · exact absurd h.symm hx
          · exact h
        obtain ⟨p, r, hsc, hcat, hnp⟩ := (splitOnceChars_spec c xs).1 hxs
        refine ⟨x :: p, r, ?_, by simp [hcat], ?_⟩
        · simp [splitOnceChars, hx, hsc]
        · simp only [List.mem_cons, not_or]
          exact ⟨fun h => hx h.symm, hnp⟩
    · intro hmem
      have hx : ¬ x = c := fun h => hmem (by simp [h])
      have hxs : c ∉ xs := fun h => hmem (List.mem_cons_of_mem x h)
      simp [splitOnceChars, hx, (splitOnceChars_spec c xs).2 hxs]

/-- `takeWhile` keeps exactly a prefix of satisfying elements when the
first failing element is `c`. -/
theorem takeWhile_append_stop (p : Char → Bool) (c : Char) (hc : p c = false) :
    ∀ (l₁ l₂ : List Char), (∀ x ∈ l₁, p x = true) →
      (l₁ ++ c :: l₂).takeWhile p = l₁
  | [], l₂, _ => by simp [List.takeWhile_cons, hc]
  | a :: l₁, l₂, h => by
    have ha : p a = true := h a (by simp)
    simp [List.takeWhile_cons, ha,
      takeWhile_append_stop p c hc l₁ l₂ fun x hx => h x (by simp [hx])]

/-- The first record of a CSV stream beginning with the fixed header. -/
theorem firstLine_csv_header (t : String) :
    firstLine ("Type,Parent,Member\n" ++ t) = "Type,Parent,Member" := by
  apply String.ext
  show (("Type,Parent,Member\n".data ++ t.data).takeWhile fun ch => ch ≠ '\n')
      = ("Type,Parent,Member" : String).data
  have hdata : "Type,Parent,Member\n".data = "Type,Parent,Member".data ++ ['\n'] := by
    decide
  rw [hdata, List.append_assoc]
  exact takeWhile_append_stop _ '\n' (by decide) _ _ (by decide)

/-- The first record of a TSV stream beginning with the fixed header. -/
theorem firstLine_tsv_header (t : String) :
    firstLine ("Type\tParent\tMember\n" ++ t) = "Type\tParent\tMember" := by
  apply String.ext
  show (("Type\tParent\tMember\n".data ++ t.data).takeWhile fun ch => ch ≠ '\n')
      = ("Type\tParent\tMember" : String).data
  have hdata : "Type\tParent\tMember\n".data = "Type\tParent\tMember".data ++ ['\n'] := by
    decide
  rw [hdata, List.append_assoc]
  exact takeWhile_append_stop _ '\n' (by decide) _ _ (by decide)

/-- For a type name governed by the split policy with separator `c`, the
member transformation is `split_once` on `c` with fallback to an empty
parent. -/
theorem splitMember_splittable (name : String) (c : Char)
    (hc : (name ∈ SPLITTABLE_BY_DOT ∧ c = '.') ∨
          (name ∈ SPLITTABLE_BY_HYPHEN ∧ c = '-'))
    (m : String) :
    splitMember name true m =
      match splitOnce m c with
      | some (p, rest) => (p, rest)
      | none => ("", m) := by
  rcases hc with ⟨h, hc⟩ | ⟨h, hc⟩
  · subst hc
    simp [splitMember, h]
  · subst hc
    have hname : name = "Layout" := by simpa [SPLITTABLE_BY_HYPHEN] using h
    subst hname
    have hdot : "Layout" ∉ SPLITTABLE_BY_DOT := by decide
    have hhyp : "Layout" ∈ SPLITTABLE_BY_HYPHEN := by decide
    simp [splitMember, hdot, hhyp]

/-- Claim C1: with splitting enabled and a group type in the split policy
with separator `c`, a member containing `c` yields a parent equal to the
part before the first `c` (so the parent is `c`-free) and a member holding
everything after that first `c`; a member not containing `c` is emitted
unchanged with an empty parent. -/
theorem split_on_first_separator (name : String) (c : Char) (s : String)
    (hc : (name ∈ SPLITTABLE_BY_DOT ∧ c = '.') ∨
          (name ∈ SPLITTABLE_BY_HYPHEN ∧ c = '-')) :
    (c ∈ s.data →
        (splitMember name true s).1.data ++ c :: (splitMember name true s).2.data = s.data
          ∧ c ∉ (splitMember name true s).1.data)
      ∧ (c ∉ s.data → splitMember name true s = ("", s)) := by
  rw [splitMember_splittable name c hc s]
  constructor
  · intro hmem
    obtain ⟨p, r, hsc, hcat, hnp⟩ := (splitOnceChars_spec c s.data).1 hmem
    simp only [splitOnce, hsc]
    exact ⟨hcat, hnp⟩
  · intro hmem
    simp only [splitOnce, (splitOnceChars_spec c s.data).2 hmem]

/-- Witness for claim C1 at a concrete splittable member with two dots. -/
theorem split_on_first_separator_witness :
    ((splitMember "CustomField" true "Account.Sub.Field__c").1.data ++ '.' ::
        (splitMember "CustomField" true "Account.Sub.Field__c").2.data
          = ("Account.Sub.Field__c" : String).data)
      ∧ '.' ∉ (splitMember "CustomField" true "Account.Sub.Field__c").1.data :=
  (split_on_first_separator "CustomField" '.' "Account.Sub.Field__c"
    (Or.inl ⟨by decide, rfl⟩)).1 (by decide)

/-- Claim C3: with the split toggle off, or for a type outside the split
policy, the row transformation keeps an empty parent and the member
unchanged. -/
theorem split_disabled_or_unsplittable (name : String) (split_parent : Bool) (m : String)
    (h : split_parent = false ∨
        (name ∉ SPLITTABLE_BY_DOT ∧ name ∉ SPLITTABLE_BY_HYPHEN)) :
    splitMember name split_parent m = ("", m) := by
  rcases h with h | ⟨h1, h2⟩
  · subst h
    simp [splitMember]
  · simp [splitMember, h1, h2]

/-- Witness for claim C3 at the non-splittable type of the spec scenario. -/
theorem split_disabled_or_unsplittable_witness :
    splitMember "ApexClass" true "MyClass.Inner" = ("", "MyClass.Inner") :=
  split_disabled_or_unsplittable "ApexClass" true "MyClass.Inner"
    (Or.inr ⟨by decide, by decide⟩)

/-- Claim C10: a member of a splittable type that starts with the separator
splits into an empty parent and the member with the leading separator
removed, so an empty parent does not imply an unchanged member. -/
theorem leading_separator_empty_parent (name : String) (c : Char) (rest : List Char)
    (hc : (name ∈ SPLITTABLE_BY_DOT ∧ c = '.') ∨
          (name ∈ SPLITTABLE_BY_HYPHEN ∧ c = '-')) :
    splitMember name true (String.mk (c :: rest)) = ("", String.mk rest)
      ∧ String.mk rest ≠ String.mk (c :: rest) := by
  constructor
  · rw [splitMember_splittable name c hc (String.mk (c :: rest))]
    have hdata : (String.mk (c :: rest)).data = c :: rest := rfl
    have hsc : splitOnceChars c (c :: rest) = some ([], rest) := by
      simp [splitOnceChars]
    simp only [splitOnce, hdata, hsc]
  · intro h
    have hdata : rest = c :: rest := congrArg String.data h
    exact List.cons_ne_self c rest hdata.symm

/-- Witness for claim C10 at a dot-splittable member with a leading dot. -/
theorem leading_separator_empty_parent_witness :
    splitMember "CustomField" true ".Field" = ("", "Field")
      ∧ ("Field" : String) ≠ ".Field" :=
  leading_separator_empty_parent "CustomField" '.' "Field".data
    (Or.inl ⟨by decide, rfl⟩)

/-- Claim C6: a manifest with no groups, or with only member-less groups,
flattens to the empty row sequence for every sort mode and toggle. -/
theorem flatten_empty_manifest (package : Package) (sort_order : SortOrder)
    (split_parent : Bool)
    (h : package.types = [] ∨ ∀ t ∈ package.types, t.members = []) :
    flatten_components package sort_order split_parent = [] := by
  have hrows : flattenRows package split_parent = [] := by
    rcases h with h | h
    · simp [flattenRows, h]
    · rw [flattenRows, List.flatMap_eq_nil_iff]
      intro t ht
      simp [h t ht]
  cases sort_order <;> simp [flatten_components, hrows]

/-- Witness for claim C6 at the empty manifest. -/
theorem flatten_empty_manifest_witness :
    flatten_components ⟨[]⟩ SortOrder.asIs true = [] :=
  flatten_empty_manifest ⟨[]⟩ SortOrder.asIs true (Or.inl rfl)

/-- Claim C5: with `AsIs` sorting the pipeline output is the flattened
sequence itself — one row per (group, member) pair, groups in manifest
order and members in group order. -/
theorem flatten_asIs_identity (package : Package) (split_parent : Bool) :
    flatten_components package .asIs split_parent = flattenRows package split_parent
      ∧ flattenRows package split_parent =
        (package.types.map fun t =>
          t.members.map fun m =>
            ComponentRow.mk t.name (splitMember t.name split_parent m).1
              (splitMember t.name split_parent m).2).flatten :=
  ⟨rfl, rfl⟩

/-- Claim C7: the spec's round-trip scenario, evaluated end to end. -/
theorem round_trip_csv_scenario :
    output_csv (flatten_components ⟨[⟨["Account.Active__c"], "CustomField"⟩]⟩ .asIs true)
      = "Type,Parent,Member\nCustomField,Account,Active__c\n" := by
  decide

/-- Claim C8 (against the code): the error dispatch of `main` silences a
broken pipe only when the boxed error is an `io::Error` itself; the
`csv::Error` produced by the csv/tsv writers is not downcast, so a broken
pipe there exits with an error message. -/
theorem broken_pipe_dispatch :
    handleOutputResult (.ok ()) = .successSilent
      ∧ handleOutputResult (.error (.ioError .brokenPipe)) = .successSilent
      ∧ handleOutputResult (.error (.ioError .otherKind)) = .errorExitWithMessage
      ∧ handleOutputResult (.error (.csvError .brokenPipe)) = .errorExitWithMessage :=
  ⟨rfl, rfl, rfl, rfl⟩

/-- Counterexample to claim C2: with splitting inactive the emitted CSV
header still has three fields, not two. -/
theorem header_field_count_not_two :
    fieldCount ',' (firstLine (output_csv (flatten_components
        ⟨[⟨["Account.Active__c"], "CustomField"⟩]⟩ .asIs false))) = 3
      ∧ fieldCount ',' (firstLine (output_csv (flatten_components
        ⟨[⟨["Account.Active__c"], "CustomField"⟩]⟩ .asIs false))) ≠ 2 := by
  decide

/-- Claim C2 as amended: for every row sequence, CSV and TSV output are one
fixed three-field header record followed by one record per row, so exactly
one header is emitted (also for zero rows) and its field count is always
three, whether or not splitting is active. -/
theorem delimited_header_always_three_fields (rows : List ComponentRow) :
    output_csv rows = "Type,Parent,Member\n" ++
        String.join (rows.map fun r => writeRecord ',' [r.metadata_type, r.parent, r.member])
      ∧ output_tsv rows = "Type\tParent\tMember\n" ++
        String.join (rows.map fun r => writeRecord '\t' [r.metadata_type, r.parent, r.member])
      ∧ fieldCount ',' (firstLine (output_csv rows)) = 3
      ∧ fieldCount '\t' (firstLine (output_tsv rows)) = 3 := by
  have hcsv : output_csv rows = "Type,Parent,Member\n" ++
      String.join (rows.map fun r => writeRecord ',' [r.metadata_type, r.parent, r.member]) :=
    rfl
  have htsv : output_tsv rows = "Type\tParent\tMember\n" ++
      String.join (rows.map fun r => writeRecord '\t' [r.metadata_type, r.parent, r.member]) :=
    rfl
  refine ⟨hcsv, htsv, ?_, ?_⟩
  · rw [hcsv, firstLine_csv_header]
    decide
  · rw [htsv, firstLine_tsv_header]
    decide

/-- Claim C4: `ByType` sorting produces a sequence in which every earlier
row is strictly below every distinct later row in the lexicographic
(type, parent, member) order — so the order of distinct rows is fully
determined and the sequence is non-decreasing. -/
theorem flatten_byType_sorted (package : Package) (split_parent : Bool) :
    (flatten_components package .byType split_parent).Pairwise
      fun a b => cmpRow a b = .lt ∨ a = b := by
  have hs := @List.sorted_mergeSort ComponentRow rowLe rowLe_trans rowLe_total
    (flattenRows package split_parent)
  have hdef : flatten_components package .byType split_parent
      = (flattenRows package split_parent).mergeSort rowLe := rfl
  rw [hdef]
  refine List.Pairwise.imp ?_ hs
  intro a b hab
  rw [rowLe, ordering_isLE_iff] at hab
  rcases hab with h | h
  · exact Or.inl h
  · exact Or.inr ((cmpRow_eq_iff a b).mp h)

/-- Claim C9: for both sort modes and both toggles, the pipeline emits one
row per member — the row count is the sum of the group sizes — and the
`ByType` result is a permutation of the `AsIs` result. -/
theorem flatten_row_count_permutation (package : Package) (sort_order : SortOrder)
    (split_parent : Bool) :
    (flatten_components package sort_order split_parent).length
        = (package.types.map fun t => t.members.length).sum
      ∧ (flatten_components package .byType split_parent).Perm
          (flatten_components package .asIs split_parent) := by
  constructor
  · have hlen : (flattenRows package split_parent).length
        = (package.types.map fun t => t.members.length).sum := by
      simp [flattenRows, List.flatMap_def, Function.comp_def]
    cases sort_order
    · simpa [flatten_components] using hlen
    · simpa [flatten_components] using hlen
  · have hdef : flatten_components package .byType split_parent
        = (flattenRows package split_parent).mergeSort rowLe := rfl
    rw [hdef]
    exact List.mergeSort_perm (flattenRows package split_parent) rowLe

end ChangesetViewer
